import Mathlib

/-!
Shallow embedding of the surebet_bot detection core.

This file embeds, in Lean 4, the parts of the `surebet_bot` repository that
the verification claims are about:

* `surebet_bot/core/calculator.py` — arbitrage calculator
  (`calculate_implied_probability`, `calculate_arbitrage`);
* `surebet_bot/core/api_manager.py` — credential pool with failover
  (`APIManager.failover`);
* `surebet_bot/core/scheduler.py` plus `surebet_bot/constants.py` — time-slot
  resolution (`get_current_slot`) and sport prioritisation
  (`prioritize_sports`);
* `surebet_bot/core/scanner.py` — cooldown deduplication
  (`_is_in_cooldown` / `_add_cooldown`) and market extraction
  (`_extract_markets`).

Python floats are modelled by `ℚ`; `round(x, 2)` is modelled by rounding the
scaled rational to the nearest integer.  Python dictionaries (which preserve
insertion order and have unique keys) are modelled by association lists with
the same insert-or-append behaviour.  Exceptions are modelled with `Except`.
-/

namespace SurebetBot

/-! ## Calculator (`core/calculator.py`) -/

/-- Python `round(x, 2)` on a rational: round `100*x` to the nearest integer and
scale back.  (Python rounds ties on binary floats to even; ties are immaterial
to every statement proved below.) -/
def round2 (x : ℚ) : ℚ := (round (x * 100) : ℤ) / 100

/-- Python `round(x, 4)`, used for the `implied_probability` field. -/
def round4 (x : ℚ) : ℚ := (round (x * 10000) : ℤ) / 10000

/-- Result record of `calculate_arbitrage` (`SurebetResult` dataclass). -/
structure SurebetResult where
  is_surebet : Bool
  profit_pct : ℚ
  profit_base_100 : ℚ
  stakes : List ℚ
  implied_probability : ℚ
  deriving Repr, DecidableEq

/-- The sum `Σ 1/odds_i` computed by the non-degenerate branch of
`calculate_implied_probability`. -/
def implSum (odds : List ℚ) : ℚ := (odds.map (fun o => 1 / o)).sum

/-- Function `calculate_implied_probability`: returns `float('inf')` — modelled as
`none` — when the list is empty or contains a non-positive odds value,
otherwise `Σ 1/odds_i`. -/
def calculate_implied_probability (odds : List ℚ) : Option ℚ :=
  if odds = [] ∨ odds.any (fun o => o ≤ 0) then none
  else some (implSum odds)

/-- Function `calculate_arbitrage`: validation, implied-probability sum, stake split.
`Except.error` models the raised `ValueError`. -/
def calculate_arbitrage (odds : List ℚ) (total_stake : ℚ) :
    Except String SurebetResult :=
  if odds = [] then
    .error "La liste des cotes ne peut pas etre vide"
  else if odds.length < 2 then
    .error "Au moins 2 cotes sont necessaires pour un arbitrage"
  else if odds.any (fun o => o ≤ 1) then
    .error "Cotes invalides detectees"
  else if total_stake ≤ 0 then
    .error "La mise totale doit etre positive"
  else
    let L := implSum odds
    let is_surebet := decide (L < 1)
    let profit_pct := (1 - L) * 100
    let stakes :=
      if L < 1 then odds.map (fun o => total_stake * (1 / o) / L)
      else List.replicate odds.length (total_stake / odds.length)
    let profit_base_100 :=
      if L < 1 then stakes.headD 0 * odds.headD 0 - total_stake
      else 0
    .ok {
      is_surebet := is_surebet
      profit_pct := round2 profit_pct
      profit_base_100 := round2 profit_base_100
      stakes := stakes.map round2
      implied_probability := round4 L }

end SurebetBot

namespace SurebetBot

/-! Basic facts about the calculator, shared by several claims. -/

theorem implSum_pos {odds : List ℚ} (hne : odds ≠ [])
    (h : ∀ o ∈ odds, 1 < o) : 0 < implSum odds := by
  cases odds with
  | nil => exact absurd rfl hne
  | cons a l =>
    have ha : 0 < a := lt_trans one_pos (h a (List.mem_cons_self a l))
    have h1 : 0 < 1 / a := by positivity
    have h2 : 0 ≤ (l.map (fun o => 1 / o)).sum := by
      apply List.sum_nonneg
      intro x hx
      obtain ⟨o, ho, rfl⟩ := List.mem_map.mp hx
      have : 0 < o := lt_trans one_pos (h o (List.mem_cons_of_mem a ho))
      positivity
    simpa [implSum, List.map_cons, List.sum_cons] using add_pos_of_pos_of_nonneg h1 h2

/-- On well-validated input, the `calculate_arbitrage` guards fall through and
the `.ok` branch is taken. -/
theorem calculate_arbitrage_ok (odds : List ℚ) (total_stake : ℚ)
    (hlen : 2 ≤ odds.length) (hodds : ∀ o ∈ odds, 1 < o)
    (hstake : 0 < total_stake) :
    calculate_arbitrage odds total_stake =
      .ok {
        is_surebet := decide (implSum odds < 1)
        profit_pct := round2 ((1 - implSum odds) * 100)
        profit_base_100 := round2
          (if implSum odds < 1 then
            (odds.map (fun o => total_stake * (1 / o) / implSum odds)).headD 0
              * odds.headD 0 - total_stake
          else 0)
        stakes :=
          (if implSum odds < 1 then
            odds.map (fun o => total_stake * (1 / o) / implSum odds)
          else List.replicate odds.length (total_stake / odds.length)).map round2
        implied_probability := round4 (implSum odds) } := by
  have hne : odds ≠ [] := by
    intro h; rw [h] at hlen; simp at hlen
  have hany : odds.any (fun o => o ≤ 1) = false := by
    rw [List.any_eq_false]
    intro o ho
    simpa using not_le.mpr (hodds o ho)
  unfold calculate_arbitrage
  rw [if_neg hne, if_neg (by omega), if_neg (by simp [hany]), if_neg (not_le.mpr hstake)]
  by_cases h : implSum odds < 1 <;> simp only [h, if_pos, if_neg, if_true, if_false]

theorem round2_nonpos {x : ℚ} (hx : x ≤ 0) : round2 x ≤ 0 := by
  unfold round2
  have h1 : x * 100 + 1 / 2 ≤ 1 / 2 := by nlinarith
  have h2 : round (x * 100) ≤ 0 := by
    rw [round_eq]
    calc ⌊x * 100 + 1 / 2⌋ ≤ ⌊(1 : ℚ) / 2⌋ := Int.floor_mono h1
    _ = 0 := by norm_num
  have : ((round (x * 100) : ℤ) : ℚ) ≤ 0 := by exact_mod_cast h2
  linarith

theorem abs_round2_sub_le (x : ℚ) : |round2 x - x| ≤ 1 / 200 := by
  unfold round2
  have h := abs_sub_round (x * 100)
  have h3 : ((round (x * 100) : ℤ) : ℚ) / 100 - x = ((round (x * 100) : ℚ) - x * 100) / 100 := by
    ring
  rw [h3, abs_div, abs_sub_comm]
  have h4 : |(100 : ℚ)| = 100 := by norm_num
  rw [h4]
  linarith

/-- Sum of 2-decimal-rounded entries differs from the exact sum by at most
`1/200` per entry. -/
theorem abs_sum_round2_sub_le (l : List ℚ) :
    |(l.map round2).sum - l.sum| ≤ l.length * (1 / 200) := by
  induction l with
  | nil => simp
  | cons a l ih =>
    have h := abs_round2_sub_le a
    have htri : |(round2 a + (l.map round2).sum) - (a + l.sum)| ≤
        |round2 a - a| + |(l.map round2).sum - l.sum| := by
      have : (round2 a + (l.map round2).sum) - (a + l.sum) =
          (round2 a - a) + ((l.map round2).sum - l.sum) := by ring
      rw [this]
      exact abs_add _ _
    simp only [List.map_cons, List.sum_cons, List.length_cons]
    push_cast
    calc |(round2 a + (l.map round2).sum) - (a + l.sum)| ≤
        |round2 a - a| + |(l.map round2).sum - l.sum| := htri
    _ ≤ 1 / 200 + l.length * (1 / 200) := add_le_add h ih
    _ = (l.length + 1) * (1 / 200) := by ring

end SurebetBot

namespace SurebetBot

/-! ## Claims C1, C3, C10 — calculator behaviour -/

/-- C1: for every list of `N ≥ 2` odds all `> 1` and every positive total
stake, `calculate_arbitrage` returns a result whose `is_surebet` field is true
iff `L = Σ 1/odds_i < 1`, and whose `profit_pct` field is `(1 - L) * 100`
rounded to 2 decimals, which is nonpositive when no arbitrage exists. -/
theorem calculator_surebet_iff (odds : List ℚ) (total_stake : ℚ)
    (hlen : 2 ≤ odds.length) (hodds : ∀ o ∈ odds, 1 < o)
    (hstake : 0 < total_stake) :
    ∃ r, calculate_arbitrage odds total_stake = .ok r ∧
      (r.is_surebet = true ↔ implSum odds < 1) ∧
      r.profit_pct = round2 ((1 - implSum odds) * 100) ∧
      (1 ≤ implSum odds → r.profit_pct ≤ 0) := by
  refine ⟨_, calculate_arbitrage_ok odds total_stake hlen hodds hstake, ?_, rfl, ?_⟩
  · simp
  · intro hL
    exact round2_nonpos (by nlinarith)

/-- Witness for C1 at odds `[1.85, 2.20]`, stake `100`. -/
theorem calculator_surebet_iff_witness :
    2 ≤ ([37/20, 11/5] : List ℚ).length ∧ (∀ o ∈ ([37/20, 11/5] : List ℚ), 1 < o) ∧
      (0 : ℚ) < 100 ∧
      (∃ r, calculate_arbitrage [37/20, 11/5] 100 = .ok r ∧
        (r.is_surebet = true ↔ implSum [37/20, 11/5] < 1) ∧
        r.profit_pct = round2 ((1 - implSum [37/20, 11/5]) * 100) ∧
        (1 ≤ implSum [37/20, 11/5] → r.profit_pct ≤ 0)) :=
  ⟨by decide, by intro o ho; fin_cases ho <;> norm_num, by norm_num,
    calculator_surebet_iff [37/20, 11/5] 100 (by decide)
      (by intro o ho; fin_cases ho <;> norm_num) (by norm_num)⟩

/-- C3: `calculate_arbitrage` raises a `ValueError` exactly when the input is
invalid: fewer than two odds (including an empty list), an odds value `≤ 1`,
or a total stake `≤ 0`; on every other input it returns a result. -/
theorem calculator_error_iff (odds : List ℚ) (total_stake : ℚ) :
    (∃ e, calculate_arbitrage odds total_stake = .error e) ↔
      (odds.length < 2 ∨ (∃ o ∈ odds, o ≤ 1) ∨ total_stake ≤ 0) := by
  unfold calculate_arbitrage
  split_ifs with h1 h2 h3 h4
  · simp [h1]
  · simp [h2]
  · simp only [List.any_eq_true, decide_eq_true_eq] at h3
    simp [h3]
  · simp [h4]
  · simp only [List.any_eq_true, decide_eq_true_eq] at h3
    constructor
    · rintro ⟨e, he⟩
      cases he
    · intro h
      rcases h with h | h | h
      · omega
      · exact absurd h h3
      · exact absurd h h4

/-- C10: on valid input with `L = Σ 1/odds_i ≥ 1` (no arbitrage), the result
has `profit_base_100` exactly `0`, `is_surebet` false, and `stakes` equal to
the equal split `total_stake / N` rounded to 2 decimals, for each outcome. -/
theorem calculator_equal_split_no_arbitrage (odds : List ℚ) (total_stake : ℚ)
    (hlen : 2 ≤ odds.length) (hodds : ∀ o ∈ odds, 1 < o)
    (hstake : 0 < total_stake) (hL : 1 ≤ implSum odds) :
    ∃ r, calculate_arbitrage odds total_stake = .ok r ∧
      r.is_surebet = false ∧
      r.profit_base_100 = 0 ∧
      r.stakes = List.replicate odds.length (round2 (total_stake / odds.length)) := by
  refine ⟨_, calculate_arbitrage_ok odds total_stake hlen hodds hstake, ?_, ?_, ?_⟩
  · simp [not_lt.mpr hL]
  · simp only [if_neg (not_lt.mpr hL)]
    unfold round2
    norm_num
  · simp [if_neg (not_lt.mpr hL), List.map_replicate]

/-- Witness for C10 at odds `[1.50, 2.20]`, stake `100` (`L = 37/33 > 1`). -/
theorem calculator_equal_split_no_arbitrage_witness :
    2 ≤ ([3/2, 11/5] : List ℚ).length ∧ (∀ o ∈ ([3/2, 11/5] : List ℚ), 1 < o) ∧
      (0 : ℚ) < 100 ∧ 1 ≤ implSum [3/2, 11/5] ∧
      (∃ r, calculate_arbitrage [3/2, 11/5] 100 = .ok r ∧
        r.is_surebet = false ∧
        r.profit_base_100 = 0 ∧
        r.stakes = List.replicate ([3/2, 11/5] : List ℚ).length
          (round2 (100 / ([3/2, 11/5] : List ℚ).length))) :=
  ⟨by decide, by intro o ho; fin_cases ho <;> norm_num, by norm_num, by norm_num [implSum],
    calculator_equal_split_no_arbitrage [3/2, 11/5] 100 (by decide)
      (by intro o ho; fin_cases ho <;> norm_num) (by norm_num) (by norm_num [implSum])⟩

end SurebetBot

namespace SurebetBot

/-! ## Claim C2 — arbitrage-case stake split -/

/-- C2 counterexample: at odds `[100, 1.02]` and stake `100` the returned
(2-decimal-rounded) stakes are `[1.01, 98.99]`; their returns are
`101` and `100.9698`, which differ by `0.0302 > 0.01`, and
`profit_base_100 = 0.97` differs from `stakes[0]*odds[0] - 100 = 1`. -/
theorem calculator_stakes_counterexample :
    calculate_arbitrage [100, 51/50] 100 = .ok
      { is_surebet := true, profit_pct := 24/25, profit_base_100 := 97/100,
        stakes := [101/100, 9899/100], implied_probability := 619/625 } ∧
    ¬ |(101/100 : ℚ) * 100 - (9899/100 : ℚ) * (51/50)| ≤ 1/100 ∧
    (97/100 : ℚ) ≠ (101/100 : ℚ) * 100 - 100 := by
  refine ⟨?_, by rw [abs_of_pos] <;> norm_num, by norm_num⟩
  unfold calculate_arbitrage
  rw [if_neg (by simp), if_neg (by simp), if_neg (by norm_num), if_neg (by norm_num)]
  norm_num [implSum, round2, round4, round_eq]

end SurebetBot

namespace SurebetBot

/-- C2 (amended): on an arbitrage-positive input, the stakes list has the same
length and order as the odds; the pre-rounding stakes
`u_i = total_stake * (1/odds_i) / L` yield the exactly equal guaranteed return
`total_stake / L` on every outcome; the returned stakes are the `u_i` rounded
to 2 decimals and hence sum to the total stake within `0.01` per entry; and
`profit_base_100` is `u_0 * odds_0 - total_stake` (the pre-rounding return
minus the stake), rounded to 2 decimals. -/
theorem calculator_arbitrage_stakes (odds : List ℚ) (total_stake : ℚ)
    (hlen : 2 ≤ odds.length) (hodds : ∀ o ∈ odds, 1 < o)
    (hstake : 0 < total_stake) (hL : implSum odds < 1) :
    ∃ r, calculate_arbitrage odds total_stake = .ok r ∧
      r.stakes = (odds.map
        (fun o => total_stake * (1 / o) / implSum odds)).map round2 ∧
      r.stakes.length = odds.length ∧
      odds.map (fun o => (total_stake * (1 / o) / implSum odds) * o)
        = List.replicate odds.length (total_stake / implSum odds) ∧
      |r.stakes.sum - total_stake| ≤ (odds.length : ℚ) * (1 / 100) ∧
      r.profit_base_100 = round2 (total_stake / implSum odds - total_stake) := by
  have hne : odds ≠ [] := by
    intro h; rw [h] at hlen; simp at hlen
  have hLpos : 0 < implSum odds := implSum_pos hne hodds
  have hLne : implSum odds ≠ 0 := ne_of_gt hLpos
  refine ⟨_, calculate_arbitrage_ok odds total_stake hlen hodds hstake, ?_, ?_, ?_, ?_, ?_⟩
  · simp [if_pos hL]
  · simp [if_pos hL]
  · rw [List.eq_replicate_iff]
    refine ⟨by simp, ?_⟩
    intro b hb
    obtain ⟨o, ho, rfl⟩ := List.mem_map.mp hb
    have hone : 1 < o := hodds o ho
    have ho0 : o ≠ 0 := ne_of_gt (lt_trans one_pos hone)
    field_simp
    ring
  · have hsum : (odds.map (fun o => total_stake * (1 / o) / implSum odds)).sum
        = total_stake := by
      have heq : (odds.map (fun o => total_stake * (1 / o) / implSum odds))
          = odds.map (fun o => (total_stake / implSum odds) * (1 / o)) := by
        apply List.map_congr_left
        intro o _
        ring
      rw [heq, List.sum_map_mul_left]
      rw [show (odds.map (fun o => 1 / o)).sum = implSum odds from rfl]
      field_simp
    have hb := abs_sum_round2_sub_le (odds.map (fun o => total_stake * (1 / o) / implSum odds))
    rw [hsum, List.length_map] at hb
    simp only [if_pos hL]
    calc |((odds.map (fun o => total_stake * (1 / o) / implSum odds)).map round2).sum
          - total_stake| ≤ (odds.length : ℚ) * (1 / 200) := hb
    _ ≤ (odds.length : ℚ) * (1 / 100) := by
        have : (0:ℚ) ≤ (odds.length : ℚ) := by positivity
        nlinarith
  · simp only [if_pos hL]
    congr 1
    cases odds with
    | nil => exact absurd rfl hne
    | cons a l =>
      have hone : 1 < a := hodds a (List.mem_cons_self a l)
      have ha0 : a ≠ 0 := ne_of_gt (lt_trans one_pos hone)
      simp only [List.map_cons, List.headD_cons]
      field_simp
      ring

/-- Witness for the amended C2 at odds `[2.10, 2.10]`, stake `100`
(`L = 20/21 < 1`). -/
theorem calculator_arbitrage_stakes_witness :
    2 ≤ ([21/10, 21/10] : List ℚ).length ∧ (∀ o ∈ ([21/10, 21/10] : List ℚ), 1 < o) ∧
      (0 : ℚ) < 100 ∧ implSum [21/10, 21/10] < 1 ∧
      (∃ r, calculate_arbitrage [21/10, 21/10] 100 = .ok r ∧
        r.stakes = (([21/10, 21/10] : List ℚ).map
          (fun o => 100 * (1 / o) / implSum [21/10, 21/10])).map round2 ∧
        r.stakes.length = ([21/10, 21/10] : List ℚ).length ∧
        ([21/10, 21/10] : List ℚ).map
            (fun o => (100 * (1 / o) / implSum [21/10, 21/10]) * o)
          = List.replicate ([21/10, 21/10] : List ℚ).length
              (100 / implSum [21/10, 21/10]) ∧
        |r.stakes.sum - 100| ≤ (([21/10, 21/10] : List ℚ).length : ℚ) * (1 / 100) ∧
        r.profit_base_100 = round2 (100 / implSum [21/10, 21/10] - 100)) :=
  ⟨by decide, by intro o ho; fin_cases ho <;> norm_num, by norm_num,
    by norm_num [implSum],
    calculator_arbitrage_stakes [21/10, 21/10] 100 (by decide)
      (by intro o ho; fin_cases ho <;> norm_num) (by norm_num) (by norm_num [implSum])⟩

end SurebetBot

namespace SurebetBot

/-! ## Credential pool (`core/api_manager.py`) -/

/-- The `APIKey` dataclass. -/
structure APIKey where
  email : String
  key : String
  is_valid : Bool := true
  requests_used : Nat := 0
  error_count : Nat := 0
  deriving Repr, DecidableEq, Inhabited

/-- Mutable state of `APIManager` (the fields `failover` touches). -/
structure APIManagerState where
  keys : List APIKey
  current_index : Nat
  failover_count : Nat
  auto_generate : Bool
  deriving Repr, DecidableEq

/-- The scan loop of `failover`:
`for _ in range(len(keys)): current_index = (current_index+1) % len(keys);
if keys[current_index].is_valid: return True; if current_index == original:
break`.  Returns the found index (if any) together with the final value of
`current_index`; the fuel is the `range(len(keys))` bound. -/
def scanStep (keys : List APIKey) (original : Nat) : Nat → Nat → Option Nat × Nat
  | idx, 0 => (none, idx)
  | idx, fuel+1 =>
    if (keys.getD ((idx + 1) % keys.length) default).is_valid then
      (some ((idx + 1) % keys.length), (idx + 1) % keys.length)
    else if (idx + 1) % keys.length = original then
      (none, (idx + 1) % keys.length)
    else scanStep keys original ((idx + 1) % keys.length) fuel

/-- Marking step `old_key.is_valid = False; old_key.error_count += 1`. -/
def invalidateKey (k : APIKey) : APIKey :=
  { k with is_valid := false, error_count := k.error_count + 1 }

/-- The key list after the `if self.keys:` marking block of `failover`: the
active credential is marked invalid with its error count bumped (no-op on an
empty pool, where the Python guard skips the marking). -/
def markedKeys (st : APIManagerState) : List APIKey :=
  if st.keys = [] then st.keys
  else st.keys.set st.current_index
    (invalidateKey (st.keys.getD st.current_index default))

/-- Method `APIManager.failover`: bump the failover counter, mark the active
credential invalid, scan circularly for the next valid credential.  Returns
`none` only on the path where the Python code invokes external credential
generation (`auto_generate` enabled and the pool exhausted) — an effect
outside this embedding; the claims run with auto-generation disabled, where
`failover` is total. -/
def failover (st : APIManagerState) : Option (Bool × APIManagerState) :=
  match scanStep (markedKeys st) st.current_index st.current_index
      (markedKeys st).length with
  | (some i, _) =>
    some (true, ⟨markedKeys st, i, st.failover_count + 1, st.auto_generate⟩)
  | (none, fin) =>
    if st.auto_generate then none
    else some (false, ⟨markedKeys st, fin, st.failover_count + 1, st.auto_generate⟩)

/-- Iterated calls to `failover` (`n` of them); returns the result of the `n`-th call
(`(true, initial state)` by convention for `n = 0`). -/
def failoverN (st : APIManagerState) : Nat → Option (Bool × APIManagerState)
  | 0 => some (true, st)
  | n+1 =>
    match failoverN st n with
    | some (_, st') => failover st'
    | none => none

/-- The pool after its first `j` credentials have been abandoned: each of them
marked invalid with its error count bumped once. -/
def poolAfter : List APIKey → Nat → List APIKey
  | [], _ => []
  | k :: rest, 0 => k :: rest
  | k :: rest, j+1 => invalidateKey k :: poolAfter rest j

end SurebetBot

namespace SurebetBot

theorem poolAfter_zero (ks : List APIKey) : poolAfter ks 0 = ks := by
  cases ks <;> rfl

theorem poolAfter_length (ks : List APIKey) (j : Nat) :
    (poolAfter ks j).length = ks.length := by
  induction ks generalizing j with
  | nil => rfl
  | cons k rest ih =>
    cases j with
    | zero => rfl
    | succ j => simp [poolAfter, ih]

theorem poolAfter_getD_ge (ks : List APIKey) {j m : Nat} (h : j ≤ m) (d : APIKey) :
    (poolAfter ks j).getD m d = ks.getD m d := by
  induction ks generalizing j m with
  | nil => rfl
  | cons k rest ih =>
    cases j with
    | zero => rw [poolAfter_zero]
    | succ j =>
      cases m with
      | zero => omega
      | succ m =>
        simp only [poolAfter, List.getD_cons_succ]
        exact ih (by omega)

theorem poolAfter_getD_lt (ks : List APIKey) {j m : Nat} (h : m < j) (d : APIKey) :
    (poolAfter ks j).getD m d =
      if m < ks.length then invalidateKey (ks.getD m d) else d := by
  induction ks generalizing j m with
  | nil => simp [poolAfter]
  | cons k rest ih =>
    cases j with
    | zero => omega
    | succ j =>
      cases m with
      | zero => simp [poolAfter]
      | succ m =>
        simp only [poolAfter, List.getD_cons_succ, List.length_cons]
        rw [ih (by omega)]
        simp only [Nat.add_lt_add_iff_right]

theorem poolAfter_set (ks : List APIKey) {j : Nat} (h : j < ks.length) :
    (poolAfter ks j).set j (invalidateKey ((poolAfter ks j).getD j default)) =
      poolAfter ks (j + 1) := by
  induction ks generalizing j with
  | nil => simp at h
  | cons k rest ih =>
    cases j with
    | zero =>
      rw [poolAfter_zero]
      simp [poolAfter, poolAfter_zero]
    | succ j =>
      simp only [poolAfter, List.getD_cons_succ, List.set_cons_succ]
      rw [ih (by simpa using h)]

theorem poolAfter_all_invalid (ks : List APIKey) {j : Nat} (h : ks.length ≤ j) :
    ∀ k ∈ poolAfter ks j, k.is_valid = false := by
  induction ks generalizing j with
  | nil => intro k hk; simp [poolAfter] at hk
  | cons a rest ih =>
    cases j with
    | zero => simp at h
    | succ j =>
      intro k hk
      simp only [poolAfter, List.mem_cons] at hk
      rcases hk with rfl | hk
      · rfl
      · exact ih (by simpa using h) k hk

/-- With every entry of `keys` invalid, the scan loop never finds a valid
credential. -/
theorem scanStep_none (keys : List APIKey) (hne : keys ≠ [])
    (hinv : ∀ k ∈ keys, k.is_valid = false) (original : Nat) :
    ∀ fuel idx, (scanStep keys original idx fuel).1 = none := by
  intro fuel
  induction fuel with
  | zero => intro idx; rfl
  | succ fuel ih =>
    intro idx
    have hlen : 0 < keys.length := List.length_pos.mpr hne
    have hlt : (idx + 1) % keys.length < keys.length := Nat.mod_lt _ hlen
    have hmem : keys.getD ((idx + 1) % keys.length) default ∈ keys := by
      rw [List.getD_eq_getElem keys default hlt]
      exact List.getElem_mem hlt
    have hval : (keys.getD ((idx + 1) % keys.length) default).is_valid = false :=
      hinv _ hmem
    unfold scanStep
    rw [if_neg (by simp only [hval]; exact Bool.false_ne_true)]
    by_cases h2 : (idx + 1) % keys.length = original
    · rw [if_pos h2]
    · rw [if_neg h2]
      exact ih ((idx + 1) % keys.length)

end SurebetBot

namespace SurebetBot

theorem getD_set_self (l : List APIKey) (i : Nat) (x d : APIKey)
    (h : i < l.length) : (l.set i x).getD i d = x := by
  simp [List.getD, List.getElem?_set_self', h]

theorem getD_valid_of_all_valid {keys0 : List APIKey}
    (hv : ∀ k ∈ keys0, k.is_valid = true) {m : Nat} (h : m < keys0.length) :
    (keys0.getD m default).is_valid = true := by
  apply hv
  rw [List.getD_eq_getElem keys0 default h]
  exact List.getElem_mem h

/-- One successful failover step: from the pool with the first `j` credentials
abandoned and credential `j` active, `failover` marks `j`, selects `j + 1` and
succeeds. -/
theorem failover_step (keys0 : List APIKey)
    (hv : ∀ k ∈ keys0, k.is_valid = true) {j : Nat} (hj : j + 1 < keys0.length) :
    failover ⟨poolAfter keys0 j, j, j, false⟩ =
      some (true, ⟨poolAfter keys0 (j + 1), j + 1, j + 1, false⟩) := by
  have hlen : (poolAfter keys0 j).length = keys0.length := poolAfter_length _ _
  have hne : poolAfter keys0 j ≠ [] := by
    intro h
    rw [h] at hlen
    simp at hlen
    omega
  have hset : (poolAfter keys0 j).set j
      (invalidateKey ((poolAfter keys0 j).getD j default)) = poolAfter keys0 (j + 1) :=
    poolAfter_set keys0 (by omega)
  have hl2 : (poolAfter keys0 (j + 1)).length = keys0.length := poolAfter_length _ _
  have hmod : (j + 1) % (poolAfter keys0 (j + 1)).length = j + 1 := by
    rw [hl2]
    exact Nat.mod_eq_of_lt hj
  have hvalid : ((poolAfter keys0 (j + 1)).getD (j + 1) default).is_valid = true := by
    rw [poolAfter_getD_ge keys0 (le_refl (j + 1))]
    exact getD_valid_of_all_valid hv hj
  have hmk : markedKeys ⟨poolAfter keys0 j, j, j, false⟩ = poolAfter keys0 (j + 1) := by
    unfold markedKeys
    simp only [if_neg hne]
    exact hset
  obtain ⟨n, hn⟩ : ∃ n, (poolAfter keys0 (j + 1)).length = n + 1 :=
    ⟨keys0.length - 1, by omega⟩
  have hscan : scanStep (poolAfter keys0 (j + 1)) j j ((poolAfter keys0 (j + 1)).length)
      = (some (j + 1), j + 1) := by
    rw [hn]
    simp only [scanStep]
    rw [hmod, if_pos hvalid]
  unfold failover
  rw [hmk, hscan]

/-- After `j` failovers from a fully valid pool (active index `0`), the state
is `⟨poolAfter keys0 j, j, j, false⟩` and every call so far succeeded. -/
theorem failoverN_pool (keys0 : List APIKey)
    (hv : ∀ k ∈ keys0, k.is_valid = true) :
    ∀ j, j < keys0.length →
      failoverN ⟨keys0, 0, 0, false⟩ j = some (true, ⟨poolAfter keys0 j, j, j, false⟩) := by
  intro j
  induction j with
  | zero =>
    intro _
    rw [poolAfter_zero]
    rfl
  | succ j ih =>
    intro hj
    have hstep := failover_step keys0 hv hj
    unfold failoverN
    rw [ih (by omega)]
    exact hstep

/-- The exhausting call: with only the last credential still valid and active,
`failover` marks it, finds nothing, and (auto-generation disabled) fails. -/
theorem failover_last (keys0 : List APIKey) (hK : 1 ≤ keys0.length) :
    ∃ st', failover ⟨poolAfter keys0 (keys0.length - 1), keys0.length - 1,
        keys0.length - 1, false⟩ = some (false, st') ∧
      st'.keys = poolAfter keys0 keys0.length ∧ st'.auto_generate = false := by
  have hlen : (poolAfter keys0 (keys0.length - 1)).length = keys0.length :=
    poolAfter_length _ _
  have hne : poolAfter keys0 (keys0.length - 1) ≠ [] := by
    intro h
    rw [h] at hlen
    simp at hlen
    omega
  have hset : (poolAfter keys0 (keys0.length - 1)).set (keys0.length - 1)
      (invalidateKey ((poolAfter keys0 (keys0.length - 1)).getD (keys0.length - 1) default))
      = poolAfter keys0 (keys0.length - 1 + 1) :=
    poolAfter_set keys0 (by omega)
  have hfull : keys0.length - 1 + 1 = keys0.length := by omega
  rw [hfull] at hset
  have hinv : ∀ k ∈ poolAfter keys0 keys0.length, k.is_valid = false :=
    poolAfter_all_invalid keys0 (le_refl _)
  have hne2 : poolAfter keys0 keys0.length ≠ [] := by
    intro h
    have := poolAfter_length keys0 keys0.length
    rw [h] at this
    simp at this
    omega
  have hmk : markedKeys ⟨poolAfter keys0 (keys0.length - 1), keys0.length - 1,
      keys0.length - 1, false⟩ = poolAfter keys0 keys0.length := by
    unfold markedKeys
    simp only [if_neg hne]
    exact hset
  rcases hsc : scanStep (poolAfter keys0 keys0.length) (keys0.length - 1)
      (keys0.length - 1) ((poolAfter keys0 keys0.length).length) with ⟨o, fin⟩
  have ho : o = none := by
    have h1 := scanStep_none (poolAfter keys0 keys0.length) hne2 hinv
      (keys0.length - 1) ((poolAfter keys0 keys0.length).length) (keys0.length - 1)
    rw [hsc] at h1
    exact h1
  subst ho
  refine ⟨⟨poolAfter keys0 keys0.length, fin, keys0.length - 1 + 1, false⟩, ?_, rfl, rfl⟩
  unfold failover
  rw [hmk, hsc]
  simp

/-- With the pool exhausted (all invalid) and auto-generation disabled, any
further `failover` fails again, leaving every credential invalid. -/
theorem failover_exhausted (st : APIManagerState) (hag : st.auto_generate = false)
    (hne : st.keys ≠ []) (hinv : ∀ k ∈ st.keys, k.is_valid = false) :
    ∃ st', failover st = some (false, st') := by
  have hmarked : markedKeys st = st.keys.set st.current_index
      (invalidateKey (st.keys.getD st.current_index default)) := by
    unfold markedKeys
    rw [if_neg hne]
  have hinv2 : ∀ k ∈ markedKeys st, k.is_valid = false := by
    intro k hk
    rw [hmarked] at hk
    rcases List.mem_or_eq_of_mem_set hk with h | rfl
    · exact hinv k h
    · rfl
  have hne2 : markedKeys st ≠ [] := by
    rw [hmarked]
    intro h
    apply hne
    have := congrArg List.length h
    rw [List.length_set] at this
    exact List.length_eq_zero.mp this
  rcases hsc : scanStep (markedKeys st) st.current_index st.current_index
      (markedKeys st).length with ⟨o, fin⟩
  have ho : o = none := by
    have h1 := scanStep_none (markedKeys st) hne2 hinv2 st.current_index
      (markedKeys st).length st.current_index
    rw [hsc] at h1
    exact h1
  subst ho
  refine ⟨⟨markedKeys st, fin, st.failover_count + 1, st.auto_generate⟩, ?_⟩
  unfold failover
  rw [hsc]
  simp [hag]

end SurebetBot

namespace SurebetBot

/-! ## Claim C4 — circular failover over a fully valid pool -/

/-- C4: over a pool of `K ≥ 1` credentials, all initially valid, with active
index `0` and auto-generation disabled, the `j`-th `failover` call
(`1 ≤ j ≤ K-1`) succeeds and activates credential `j` — so credentials are
visited in circular order starting just after the initial index, none twice —
with exactly the abandoned credentials `0..j-1` marked invalid; the `K`-th
call (all credentials now marked) returns failure with every credential
invalid, and the next call fails again. -/
theorem pool_failover_circular (keys0 : List APIKey) (hK : 1 ≤ keys0.length)
    (hv : ∀ k ∈ keys0, k.is_valid = true) :
    (∀ j, 1 ≤ j → j < keys0.length →
      ∃ st', failoverN ⟨keys0, 0, 0, false⟩ j = some (true, st') ∧
        st'.current_index = j ∧
        ∀ m, m < keys0.length →
          ((st'.keys.getD m default).is_valid = true ↔ j ≤ m)) ∧
    (∃ st', failoverN ⟨keys0, 0, 0, false⟩ keys0.length = some (false, st') ∧
      ∀ k ∈ st'.keys, k.is_valid = false) ∧
    (∃ st', failoverN ⟨keys0, 0, 0, false⟩ (keys0.length + 1) = some (false, st')) := by
  have hvalid_iff : ∀ j, ∀ m, m < keys0.length →
      (((poolAfter keys0 j).getD m default).is_valid = true ↔ j ≤ m) := by
    intro j m hm
    by_cases h : m < j
    · rw [poolAfter_getD_lt keys0 h, if_pos hm]
      simp only [invalidateKey]
      constructor
      · intro hfalse
        cases hfalse
      · intro hle
        exact absurd hle (by omega)
    · rw [poolAfter_getD_ge keys0 (by omega)]
      have hval := getD_valid_of_all_valid hv hm
      rw [hval]
      constructor
      · intro _
        omega
      · intro _
        rfl
  have hlast : ∃ st', failoverN ⟨keys0, 0, 0, false⟩ keys0.length = some (false, st') ∧
      st'.keys = poolAfter keys0 keys0.length ∧ st'.auto_generate = false := by
    obtain ⟨st', hfo, hkeys, hag⟩ := failover_last keys0 hK
    refine ⟨st', ?_, hkeys, hag⟩
    have hKpred : keys0.length - 1 < keys0.length := by omega
    have hchain := failoverN_pool keys0 hv (keys0.length - 1) hKpred
    have : failoverN ⟨keys0, 0, 0, false⟩ (keys0.length - 1 + 1) = failover
        ⟨poolAfter keys0 (keys0.length - 1), keys0.length - 1, keys0.length - 1, false⟩ := by
      unfold failoverN
      rw [hchain]
    rw [show keys0.length = keys0.length - 1 + 1 by omega, this, hfo]
  refine ⟨?_, ?_, ?_⟩
  · intro j hj1 hjK
    exact ⟨_, failoverN_pool keys0 hv j hjK, rfl, hvalid_iff j⟩
  · obtain ⟨st', hfo, hkeys, _⟩ := hlast
    refine ⟨st', hfo, ?_⟩
    rw [hkeys]
    exact poolAfter_all_invalid keys0 (le_refl _)
  · obtain ⟨st', hfo, hkeys, hag⟩ := hlast
    have hne : st'.keys ≠ [] := by
      rw [hkeys]
      intro h
      have := poolAfter_length keys0 keys0.length
      rw [h] at this
      simp at this
      omega
    have hinv : ∀ k ∈ st'.keys, k.is_valid = false := by
      rw [hkeys]
      exact poolAfter_all_invalid keys0 (le_refl _)
    obtain ⟨st'', hfo2⟩ := failover_exhausted st' hag hne hinv
    refine ⟨st'', ?_⟩
    unfold failoverN
    rw [hfo]
    exact hfo2

/-- Witness for C4 on a concrete pool of three valid credentials. -/
theorem pool_failover_circular_witness :
    (1 ≤ ([⟨"a", "ka", true, 0, 0⟩, ⟨"b", "kb", true, 0, 0⟩,
        ⟨"c", "kc", true, 0, 0⟩] : List APIKey).length) ∧
    (∀ k ∈ ([⟨"a", "ka", true, 0, 0⟩, ⟨"b", "kb", true, 0, 0⟩,
        ⟨"c", "kc", true, 0, 0⟩] : List APIKey), k.is_valid = true) ∧
    ((∀ j, 1 ≤ j → j < ([⟨"a", "ka", true, 0, 0⟩, ⟨"b", "kb", true, 0, 0⟩,
        ⟨"c", "kc", true, 0, 0⟩] : List APIKey).length →
      ∃ st', failoverN ⟨[⟨"a", "ka", true, 0, 0⟩, ⟨"b", "kb", true, 0, 0⟩,
          ⟨"c", "kc", true, 0, 0⟩], 0, 0, false⟩ j = some (true, st') ∧
        st'.current_index = j ∧
        ∀ m, m < ([⟨"a", "ka", true, 0, 0⟩, ⟨"b", "kb", true, 0, 0⟩,
            ⟨"c", "kc", true, 0, 0⟩] : List APIKey).length →
          ((st'.keys.getD m default).is_valid = true ↔ j ≤ m)) ∧
    (∃ st', failoverN ⟨[⟨"a", "ka", true, 0, 0⟩, ⟨"b", "kb", true, 0, 0⟩,
        ⟨"c", "kc", true, 0, 0⟩], 0, 0, false⟩
        ([⟨"a", "ka", true, 0, 0⟩, ⟨"b", "kb", true, 0, 0⟩,
          ⟨"c", "kc", true, 0, 0⟩] : List APIKey).length = some (false, st') ∧
      ∀ k ∈ st'.keys, k.is_valid = false) ∧
    (∃ st', failoverN ⟨[⟨"a", "ka", true, 0, 0⟩, ⟨"b", "kb", true, 0, 0⟩,
        ⟨"c", "kc", true, 0, 0⟩], 0, 0, false⟩
        (([⟨"a", "ka", true, 0, 0⟩, ⟨"b", "kb", true, 0, 0⟩,
          ⟨"c", "kc", true, 0, 0⟩] : List APIKey).length + 1) = some (false, st'))) :=
  ⟨by decide, by intro k hk; fin_cases hk <;> rfl,
    pool_failover_circular _ (by decide) (by intro k hk; fin_cases hk <;> rfl)⟩

end SurebetBot

namespace SurebetBot

/-! ## Claim C5 — re-reporting an already-invalid credential -/

/-- C5 counterexample: with a single credential already marked invalid
(`error_count = 1`), a further `failover` call increments its `error_count`
to `2` — the already-invalid credential *is* recorded as a new failure. -/
theorem failover_idempotence_counterexample :
    failover ⟨[⟨"a", "k1", false, 0, 1⟩], 0, 0, false⟩ =
      some (false, ⟨[⟨"a", "k1", false, 0, 2⟩], 0, 1, false⟩) := by
  rfl

/-- C5 (amended): invoking `failover` while the active credential is already
invalid leaves it invalid (the `is_valid` marking is idempotent) but still
increments its `error_count` — every call records a new failure — and bumps
the failover counter. -/
theorem failover_already_invalid (st : APIManagerState)
    (hag : st.auto_generate = false) (hlt : st.current_index < st.keys.length)
    (_hinv : (st.keys.getD st.current_index default).is_valid = false) :
    ∃ b st', failover st = some (b, st') ∧
      (st'.keys.getD st.current_index default).is_valid = false ∧
      (st'.keys.getD st.current_index default).error_count
        = (st.keys.getD st.current_index default).error_count + 1 ∧
      st'.failover_count = st.failover_count + 1 := by
  have hne : st.keys ≠ [] := by
    intro h
    rw [h] at hlt
    simp at hlt
  have hmk : markedKeys st = st.keys.set st.current_index
      (invalidateKey (st.keys.getD st.current_index default)) := by
    unfold markedKeys
    rw [if_neg hne]
  have hgd : (markedKeys st).getD st.current_index default
      = invalidateKey (st.keys.getD st.current_index default) := by
    rw [hmk]
    exact getD_set_self _ _ _ _ hlt
  rcases hsc : scanStep (markedKeys st) st.current_index st.current_index
      (markedKeys st).length with ⟨o, fin⟩
  cases o with
  | some i =>
    refine ⟨true, ⟨markedKeys st, i, st.failover_count + 1, st.auto_generate⟩,
      ?_, ?_, ?_, rfl⟩
    · unfold failover
      rw [hsc]
    · show ((markedKeys st).getD st.current_index default).is_valid = false
      rw [hgd]
      rfl
    · show ((markedKeys st).getD st.current_index default).error_count = _
      rw [hgd]
      rfl
  | none =>
    refine ⟨false, ⟨markedKeys st, fin, st.failover_count + 1, st.auto_generate⟩,
      ?_, ?_, ?_, rfl⟩
    · unfold failover
      rw [hsc]
      simp [hag]
    · show ((markedKeys st).getD st.current_index default).is_valid = false
      rw [hgd]
      rfl
    · show ((markedKeys st).getD st.current_index default).error_count = _
      rw [hgd]
      rfl

/-- Witness for the amended C5 on a two-credential pool whose active
credential is already invalid. -/
theorem failover_already_invalid_witness :
    ((⟨[⟨"a", "k1", false, 0, 3⟩, ⟨"b", "k2", true, 0, 0⟩], 0, 0, false⟩ :
        APIManagerState).auto_generate = false) ∧
    ((⟨[⟨"a", "k1", false, 0, 3⟩, ⟨"b", "k2", true, 0, 0⟩], 0, 0, false⟩ :
        APIManagerState).current_index <
      (⟨[⟨"a", "k1", false, 0, 3⟩, ⟨"b", "k2", true, 0, 0⟩], 0, 0, false⟩ :
        APIManagerState).keys.length) ∧
    (((⟨[⟨"a", "k1", false, 0, 3⟩, ⟨"b", "k2", true, 0, 0⟩], 0, 0, false⟩ :
        APIManagerState).keys.getD 0 default).is_valid = false) ∧
    (∃ b st', failover ⟨[⟨"a", "k1", false, 0, 3⟩, ⟨"b", "k2", true, 0, 0⟩],
        0, 0, false⟩ = some (b, st') ∧
      (st'.keys.getD 0 default).is_valid = false ∧
      (st'.keys.getD 0 default).error_count
        = (((⟨[⟨"a", "k1", false, 0, 3⟩, ⟨"b", "k2", true, 0, 0⟩], 0, 0, false⟩ :
            APIManagerState).keys.getD 0 default).error_count) + 1 ∧
      st'.failover_count = 1) :=
  ⟨rfl, by decide, rfl,
    failover_already_invalid _ rfl (by decide) rfl⟩

end SurebetBot

namespace SurebetBot

/-! ## Scheduler (`core/scheduler.py` and `constants.py`) -/

/-- One entry of `SCHEDULE_SLOTS` (`constants.py`). -/
structure ScheduleSlot where
  days : List Nat
  hours : Nat × Nat
  scan_interval : Nat
  label : String
  deriving Repr, DecidableEq

/-- Table `SCHEDULE_SLOTS` from `constants.py` (the free-text `description` field is
omitted; no code the claims touch reads it). -/
def SCHEDULE_SLOTS : List (String × ScheduleSlot) :=
  [("live_weekend", ⟨[5, 6], (14, 22), 5, "LIVE Week-end"⟩),
   ("evening_weekday", ⟨[0, 1, 2, 3, 4], (19, 21), 5, "Soir Semaine"⟩),
   ("boosted_odds", ⟨[0, 1, 2, 3, 4, 5, 6], (17, 20), 7, "Cotes Boostees"⟩),
   ("morning_realignment", ⟨[0, 1, 2, 3, 4, 5, 6], (9, 10), 8, "Realignement Matin"⟩),
   ("default", ⟨[0, 1, 2, 3, 4, 5, 6], (0, 24), 15, "Hors-creneau"⟩)]

/-- List `SLOT_PRIORITY` from `constants.py`. -/
def SLOT_PRIORITY : List String :=
  ["live_weekend", "evening_weekday", "boosted_odds", "morning_realignment", "default"]

/-- The per-slot test of `get_current_slot`:
`weekday in slot["days"]` and `start_h <= hour < end_h`. -/
def slotMatches (slot : ScheduleSlot) (weekday hour : Nat) : Bool :=
  weekday ∈ slot.days && slot.hours.1 ≤ hour && hour < slot.hours.2

/-- The catch-all `SCHEDULE_SLOTS["default"]` entry. -/
def defaultSlot : ScheduleSlot := ⟨[0, 1, 2, 3, 4, 5, 6], (0, 24), 15, "Hors-creneau"⟩

/-- The `for slot_name in SLOT_PRIORITY` loop of `get_current_slot`: first
slot whose day set and hour range contain the instant.  (A name absent from
`SCHEDULE_SLOTS` would raise a `KeyError` in Python; it is skipped here, and
every name in `SLOT_PRIORITY` is present, so the case never arises.) -/
def findSlot (weekday hour : Nat) : List String → Option (String × ScheduleSlot)
  | [] => none
  | name :: rest =>
    match SCHEDULE_SLOTS.lookup name with
    | some slot =>
      if slotMatches slot weekday hour then some (name, slot)
      else findSlot weekday hour rest
    | none => findSlot weekday hour rest

/-- Method `SmartScheduler.get_current_slot`, as a function of the weekday (`0..6`)
and hour (`0..23`) of `now`; the `none` branch is the post-loop fallback
`return "default", SCHEDULE_SLOTS["default"]` (scheduler.py line 74). -/
def get_current_slot (weekday hour : Nat) : String × ScheduleSlot :=
  match findSlot weekday hour SLOT_PRIORITY with
  | some r => r
  | none => ("default", defaultSlot)

/-- First matching slot name, phrased with `List.find?` ("the first slot in
the fixed priority order whose day set contains the weekday and whose
half-open hour range contains the hour"). -/
def firstMatchName (weekday hour : Nat) : Option String :=
  SLOT_PRIORITY.find? (fun n =>
    match SCHEDULE_SLOTS.lookup n with
    | some s => slotMatches s weekday hour
    | none => false)

end SurebetBot

namespace SurebetBot

/-- C6: for every weekday `0..6` and hour `0..23` the slot loop resolves — the
post-loop fallback is unreachable — to exactly the first slot in
`SLOT_PRIORITY` whose day set and hour range match; the catch-all `default`
slot matches every instant, and whenever none of the four specific windows
matches, the resolved slot is `default`. -/
theorem scheduler_slot_resolution :
    ∀ w, w < 7 → ∀ h, h < 24 →
      (findSlot w h SLOT_PRIORITY).isSome = true ∧
      firstMatchName w h = some (get_current_slot w h).1 ∧
      SCHEDULE_SLOTS.lookup (get_current_slot w h).1 = some (get_current_slot w h).2 ∧
      slotMatches defaultSlot w h = true ∧
      ((∀ n ∈ ["live_weekend", "evening_weekday", "boosted_odds", "morning_realignment"],
          ∀ s, SCHEDULE_SLOTS.lookup n = some s → slotMatches s w h = false) →
        (get_current_slot w h).1 = "default") := by
  decide

end SurebetBot

namespace SurebetBot

/-- Witness for C6 at Tuesday (weekday 1) 03:00 — a pair matching no specific
window, resolved to the catch-all slot. -/
theorem scheduler_slot_resolution_witness :
    (1 : Nat) < 7 ∧ (3 : Nat) < 24 ∧
      ((findSlot 1 3 SLOT_PRIORITY).isSome = true ∧
      firstMatchName 1 3 = some (get_current_slot 1 3).1 ∧
      SCHEDULE_SLOTS.lookup (get_current_slot 1 3).1 = some (get_current_slot 1 3).2 ∧
      slotMatches defaultSlot 1 3 = true ∧
      ((∀ n ∈ ["live_weekend", "evening_weekday", "boosted_odds", "morning_realignment"],
          ∀ s, SCHEDULE_SLOTS.lookup n = some s → slotMatches s 1 3 = false) →
        (get_current_slot 1 3).1 = "default")) :=
  ⟨by decide, by decide, scheduler_slot_resolution 1 (by decide) 3 (by decide)⟩

/-! ## Sport prioritisation (`SmartScheduler.prioritize_sports`) -/

/-- Shell-style glob match (`fnmatch.fnmatch(name, pattern)` on a POSIX
system), on the pattern fragment the project uses: `*` matches any sequence,
`?` any single character, and other characters match literally.  First
argument is the pattern, second the name. -/
def globMatch : List Char → List Char → Bool
  | [], [] => true
  | [], _ :: _ => false
  | p :: ps, [] => if p = '*' then globMatch ps [] else false
  | p :: ps, c :: cs =>
    if p = '*' then globMatch ps (c :: cs) || globMatch (p :: ps) cs
    else if p = '?' then globMatch ps cs
    else p = c && globMatch ps cs
  termination_by p s => (p.length, s.length)

/-- Python `fnmatch.fnmatch(name, pattern)`. -/
def fnmatchB (name pattern : String) : Bool :=
  globMatch pattern.toList name.toList

/-- Table `SPORT_PRIORITY` from `constants.py`. -/
def SPORT_PRIORITY : List (String × List String) :=
  [("live_weekend", ["soccer_*", "basketball_*", "tennis_*"]),
   ("evening_weekday", ["soccer_*", "basketball_*"]),
   ("boosted_odds", ["soccer_*"]),
   ("morning_realignment", ["basketball_*", "americanfootball_*", "soccer_*"]),
   ("default", ["*"])]

/-- Method `SmartScheduler.prioritize_sports` for a given current slot name.  The
input dictionary (insertion-ordered, unique keys) is an association list; the
loop moves each entry matching a pattern from `remaining` into `prioritized`
(one pass per pattern, preserving order), then appends the rest. -/
def prioritize_sports (slot_name : String) (sports : List (String × String)) :
    List (String × String) :=
  let patterns := (SPORT_PRIORITY.lookup slot_name).getD ["*"]
  let pr := patterns.foldl
    (fun (acc : List (String × String) × List (String × String)) pattern =>
      (acc.1 ++ acc.2.filter (fun kv => fnmatchB kv.1 pattern),
       acc.2.filter (fun kv => !fnmatchB kv.1 pattern)))
    ([], sports)
  pr.1 ++ pr.2

/-- The ordering the spec describes: entries matching the priority patterns
first, in pattern order (each entry claimed by its first matching pattern,
keeping the original relative order within a segment), followed by all
remaining entries in their original relative order. -/
def specPrioritizedOrder : List String → List (String × String) → List (String × String)
  | [], sports => sports
  | p :: ps, sports =>
    sports.filter (fun kv => fnmatchB kv.1 p)
      ++ specPrioritizedOrder ps (sports.filter (fun kv => !fnmatchB kv.1 p))

end SurebetBot

namespace SurebetBot

theorem prioritize_foldl_eq (patterns : List String)
    (acc rem : List (String × String)) :
    (patterns.foldl
      (fun (a : List (String × String) × List (String × String)) pattern =>
        (a.1 ++ a.2.filter (fun kv => fnmatchB kv.1 pattern),
         a.2.filter (fun kv => !fnmatchB kv.1 pattern)))
      (acc, rem)).1 ++
    (patterns.foldl
      (fun (a : List (String × String) × List (String × String)) pattern =>
        (a.1 ++ a.2.filter (fun kv => fnmatchB kv.1 pattern),
         a.2.filter (fun kv => !fnmatchB kv.1 pattern)))
      (acc, rem)).2 = acc ++ specPrioritizedOrder patterns rem := by
  induction patterns generalizing acc rem with
  | nil => simp [specPrioritizedOrder]
  | cons p ps ih =>
    simp only [List.foldl_cons, specPrioritizedOrder]
    rw [ih]
    simp [List.append_assoc]

theorem specPrioritizedOrder_perm (patterns : List String)
    (sports : List (String × String)) :
    (specPrioritizedOrder patterns sports).Perm sports := by
  induction patterns generalizing sports with
  | nil => simp [specPrioritizedOrder]
  | cons p ps ih =>
    simp only [specPrioritizedOrder]
    exact (List.Perm.append_left _ (ih _)).trans (List.filter_append_perm _ sports)

/-- C7: for every current slot and every sport dictionary,
`prioritize_sports` returns exactly the spec ordering — entries matching the
slot's priority glob patterns first, in pattern order, then the remaining
entries in their original relative order — and is a permutation of its input
(no entry dropped or duplicated, values unchanged). -/
theorem scheduler_prioritize_sports (slot_name : String)
    (sports : List (String × String)) :
    prioritize_sports slot_name sports =
      specPrioritizedOrder ((SPORT_PRIORITY.lookup slot_name).getD ["*"]) sports ∧
    (prioritize_sports slot_name sports).Perm sports := by
  have h := prioritize_foldl_eq ((SPORT_PRIORITY.lookup slot_name).getD ["*"]) [] sports
  rw [List.nil_append] at h
  constructor
  · exact h
  · rw [show prioritize_sports slot_name sports =
      specPrioritizedOrder ((SPORT_PRIORITY.lookup slot_name).getD ["*"]) sports from h]
    exact specPrioritizedOrder_perm _ _

end SurebetBot

namespace SurebetBot

/-! ## Scanner cooldown (`core/scanner.py`, `_is_in_cooldown` / `_add_cooldown`) -/

/-- Lookup `self.cooldown_cache[identifier]` — lookup in the insertion-ordered
dictionary. -/
def alGet (cache : List (String × ℚ)) (id : String) : Option ℚ :=
  match cache with
  | [] => none
  | (k, v) :: rest => if k = id then some v else alGet rest id

/-- Deletion `del self.cooldown_cache[identifier]` — remove the (unique) entry. -/
def alErase (cache : List (String × ℚ)) (id : String) : List (String × ℚ) :=
  match cache with
  | [] => []
  | (k, v) :: rest => if k = id then rest else (k, v) :: alErase rest id

/-- Assignment `self.cooldown_cache[identifier] = expires` — update in place if present,
else append (Python dict assignment). -/
def alSet (cache : List (String × ℚ)) (id : String) (v : ℚ) : List (String × ℚ) :=
  match cache with
  | [] => [(id, v)]
  | (k, w) :: rest => if k = id then (k, v) :: rest else (k, w) :: alSet rest id v

/-- Method `SurebetScanner._is_in_cooldown`: absent → not in cooldown; expired
(`datetime.now() > expires`) → delete and report not in cooldown; else in
cooldown.  Timestamps are rationals (minutes). -/
def is_in_cooldown (cache : List (String × ℚ)) (now : ℚ) (id : String) :
    Bool × List (String × ℚ) :=
  match alGet cache id with
  | none => (false, cache)
  | some expires =>
    if expires < now then (false, alErase cache id)
    else (true, cache)

/-- Method `SurebetScanner._add_cooldown`: register expiry
`now + cooldown_minutes`. -/
def add_cooldown (cache : List (String × ℚ)) (now cooldown_minutes : ℚ)
    (id : String) : List (String × ℚ) :=
  alSet cache id (now + cooldown_minutes)

/-- The deduplication step of the arbitrage finders
(e.g. `_find_totals_arbitrage`, scanner.py lines 441-447): when a surebet is
detected, suppress it if the identifier is in cooldown, otherwise register a
cooldown and emit.  Returns (emitted?, new cache). -/
def cooldownGate (cache : List (String × ℚ)) (now cooldown_minutes : ℚ)
    (id : String) : Bool × List (String × ℚ) :=
  let r := is_in_cooldown cache now id
  if r.1 then (false, r.2)
  else (true, add_cooldown r.2 now cooldown_minutes id)

/-- The cooldown identifier `f"{match}_{market_key}_{line}"` used for totals
(and, with the line, for spreads). -/
def totals_identifier (matchLabel market_key line : String) : String :=
  matchLabel ++ "_" ++ market_key ++ "_" ++ line

end SurebetBot

namespace SurebetBot

theorem alGet_append_self {cache : List (String × ℚ)} {id : String}
    (h : alGet cache id = none) (v : ℚ) :
    alGet (cache ++ [(id, v)]) id = some v := by
  induction cache with
  | nil => simp [alGet]
  | cons kv rest ih =>
    obtain ⟨k, w⟩ := kv
    by_cases hk : k = id
    · rw [alGet, if_pos hk] at h
      cases h
    · rw [alGet, if_neg hk] at h
      rw [List.cons_append, alGet, if_neg hk]
      exact ih h

theorem alErase_append_self {cache : List (String × ℚ)} {id : String}
    (h : alGet cache id = none) (v : ℚ) :
    alErase (cache ++ [(id, v)]) id = cache := by
  induction cache with
  | nil => simp [alErase]
  | cons kv rest ih =>
    obtain ⟨k, w⟩ := kv
    by_cases hk : k = id
    · rw [alGet, if_pos hk] at h
      cases h
    · rw [alGet, if_neg hk] at h
      rw [List.cons_append, alErase, if_neg hk, ih h]

theorem alSet_of_absent {cache : List (String × ℚ)} {id : String}
    (h : alGet cache id = none) (v : ℚ) :
    alSet cache id v = cache ++ [(id, v)] := by
  induction cache with
  | nil => simp [alSet]
  | cons kv rest ih =>
    obtain ⟨k, w⟩ := kv
    by_cases hk : k = id
    · rw [alGet, if_pos hk] at h
      cases h
    · rw [alGet, if_neg hk] at h
      rw [alSet, if_neg hk, ih h, List.cons_append]

/-- C8: for every cooldown identifier built from (match, market type, line):
a first detection at `t1` with the identifier absent is emitted and registers
expiry `t1 + cooldown_minutes`; a second detection strictly before that
expiry is suppressed (exactly one emission, cache unchanged); a second
detection strictly after the expiry is emitted again and registers the fresh
expiry `t2 + cooldown_minutes`. -/
theorem scanner_cooldown_dedup (cache0 : List (String × ℚ))
    (matchLabel market_key line : String) (t1 t2 cm : ℚ)
    (habs : alGet cache0 (totals_identifier matchLabel market_key line) = none) :
    (cooldownGate cache0 t1 cm (totals_identifier matchLabel market_key line)).1 = true ∧
    alGet (cooldownGate cache0 t1 cm (totals_identifier matchLabel market_key line)).2
      (totals_identifier matchLabel market_key line) = some (t1 + cm) ∧
    (t2 < t1 + cm →
      (cooldownGate
        (cooldownGate cache0 t1 cm (totals_identifier matchLabel market_key line)).2
        t2 cm (totals_identifier matchLabel market_key line)).1 = false ∧
      (cooldownGate
        (cooldownGate cache0 t1 cm (totals_identifier matchLabel market_key line)).2
        t2 cm (totals_identifier matchLabel market_key line)).2 =
        (cooldownGate cache0 t1 cm (totals_identifier matchLabel market_key line)).2) ∧
    (t1 + cm < t2 →
      (cooldownGate
        (cooldownGate cache0 t1 cm (totals_identifier matchLabel market_key line)).2
        t2 cm (totals_identifier matchLabel market_key line)).1 = true ∧
      alGet (cooldownGate
        (cooldownGate cache0 t1 cm (totals_identifier matchLabel market_key line)).2
        t2 cm (totals_identifier matchLabel market_key line)).2
        (totals_identifier matchLabel market_key line) = some (t2 + cm)) := by
  set id := totals_identifier matchLabel market_key line with hid
  have hgate1 : cooldownGate cache0 t1 cm id = (true, cache0 ++ [(id, t1 + cm)]) := by
    unfold cooldownGate is_in_cooldown
    rw [habs]
    simp only [if_neg (by simp : ¬((false, cache0).1 = true))]
    unfold add_cooldown
    rw [alSet_of_absent habs]
  have hc1get : alGet (cache0 ++ [(id, t1 + cm)]) id = some (t1 + cm) :=
    alGet_append_self habs _
  refine ⟨by rw [hgate1], by rw [hgate1]; exact hc1get, ?_, ?_⟩
  · intro hlt
    have hic : is_in_cooldown (cache0 ++ [(id, t1 + cm)]) t2 id =
        (true, cache0 ++ [(id, t1 + cm)]) := by
      unfold is_in_cooldown
      simp only [hc1get]
      rw [if_neg (not_lt.mpr (le_of_lt hlt))]
    have hgate2 : cooldownGate (cache0 ++ [(id, t1 + cm)]) t2 cm id =
        (false, cache0 ++ [(id, t1 + cm)]) := by
      unfold cooldownGate
      rw [hic]
      rfl
    rw [hgate1, hgate2]
    exact ⟨rfl, rfl⟩
  · intro hgt
    have herase : alErase (cache0 ++ [(id, t1 + cm)]) id = cache0 :=
      alErase_append_self habs _
    have hic : is_in_cooldown (cache0 ++ [(id, t1 + cm)]) t2 id =
        (false, alErase (cache0 ++ [(id, t1 + cm)]) id) := by
      unfold is_in_cooldown
      simp only [hc1get]
      rw [if_pos hgt]
    have hgate2 : cooldownGate (cache0 ++ [(id, t1 + cm)]) t2 cm id =
        (true, cache0 ++ [(id, t2 + cm)]) := by
      unfold cooldownGate
      rw [hic]
      show (true, add_cooldown (alErase (cache0 ++ [(id, t1 + cm)]) id) t2 cm id) = _
      rw [herase]
      unfold add_cooldown
      rw [alSet_of_absent habs]
    rw [hgate1, hgate2]
    exact ⟨rfl, alGet_append_self habs _⟩

/-- Witness for C8: empty cache, first detection at `t1 = 0`, second at
`t2 = 3` with a 5-minute cooldown (suppressed). -/
theorem scanner_cooldown_dedup_witness :
    alGet [] (totals_identifier "A vs B" "totals" "2.5") = none ∧
    ((cooldownGate [] 0 5 (totals_identifier "A vs B" "totals" "2.5")).1 = true ∧
    alGet (cooldownGate [] 0 5 (totals_identifier "A vs B" "totals" "2.5")).2
      (totals_identifier "A vs B" "totals" "2.5") = some (0 + 5) ∧
    ((3 : ℚ) < 0 + 5 →
      (cooldownGate
        (cooldownGate [] 0 5 (totals_identifier "A vs B" "totals" "2.5")).2
        3 5 (totals_identifier "A vs B" "totals" "2.5")).1 = false ∧
      (cooldownGate
        (cooldownGate [] 0 5 (totals_identifier "A vs B" "totals" "2.5")).2
        3 5 (totals_identifier "A vs B" "totals" "2.5")).2 =
        (cooldownGate [] 0 5 (totals_identifier "A vs B" "totals" "2.5")).2) ∧
    ((0 : ℚ) + 5 < 3 →
      (cooldownGate
        (cooldownGate [] 0 5 (totals_identifier "A vs B" "totals" "2.5")).2
        3 5 (totals_identifier "A vs B" "totals" "2.5")).1 = true ∧
      alGet (cooldownGate
        (cooldownGate [] 0 5 (totals_identifier "A vs B" "totals" "2.5")).2
        3 5 (totals_identifier "A vs B" "totals" "2.5")).2
        (totals_identifier "A vs B" "totals" "2.5") = some (3 + 5))) :=
  ⟨rfl, scanner_cooldown_dedup [] "A vs B" "totals" "2.5" 0 3 5 rfl⟩

end SurebetBot

namespace SurebetBot

/-! ## Market extraction (`SurebetScanner._extract_markets`) -/

/-- One outcome quote inside a provider's market
(`{"name": ..., "point": ..., "price": ...}`; `point` is absent for
head-to-head outcomes). -/
structure Outcome where
  name : String
  point : Option ℚ
  price : ℚ
  deriving Repr, DecidableEq

/-- One market of one bookmaker (`{"key": ..., "outcomes": [...]}`). -/
structure MarketData where
  key : String
  outcomes : List Outcome
  deriving Repr, DecidableEq

/-- One bookmaker block of an event (`{"title": ..., "markets": [...]}`). -/
structure BookmakerData where
  title : String
  markets : List MarketData
  deriving Repr, DecidableEq

/-- An event (`{"bookmakers": [...]}`). -/
structure EventData where
  bookmakers : List BookmakerData
  deriving Repr, DecidableEq

/-- The full outcome label: `f"{name} {point}"` when a line is present, else
the bare name.  Modelled as the pair (name, optional line), which the string
concatenation encodes. -/
def fullLabel (o : Outcome) : String × Option ℚ := (o.name, o.point)

/-- The grouped market dictionary: market key → outcome label →
list of (bookmaker title, price), all insertion-ordered. -/
abbrev Markets := List (String × List ((String × Option ℚ) × List (String × ℚ)))

/-- Update `markets[market_key][full_name].append((bookmaker_name, price))` at the
inner level, creating the label's list when absent. -/
def innerAppend (inner : List ((String × Option ℚ) × List (String × ℚ)))
    (lbl : String × Option ℚ) (entry : String × ℚ) :
    List ((String × Option ℚ) × List (String × ℚ)) :=
  match inner with
  | [] => [(lbl, [entry])]
  | (l, es) :: rest =>
    if l = lbl then (l, es ++ [entry]) :: rest
    else (l, es) :: innerAppend rest lbl entry

/-- Guard `if market_key not in markets: markets[market_key] = \x7b\x7d`. -/
def marketsEnsure (ms : Markets) (mk : String) : Markets :=
  match ms with
  | [] => [(mk, [])]
  | (k, inner) :: rest =>
    if k = mk then (k, inner) :: rest
    else (k, inner) :: marketsEnsure rest mk

/-- Append a quote under its market key and outcome label. -/
def marketsAppend (ms : Markets) (mk : String) (lbl : String × Option ℚ)
    (entry : String × ℚ) : Markets :=
  match ms with
  | [] => [(mk, [(lbl, [entry])])]
  | (k, inner) :: rest =>
    if k = mk then (k, innerAppend inner lbl entry) :: rest
    else (k, inner) :: marketsAppend rest mk lbl entry

/-- Per-outcome body of `_extract_markets`: keep the quote only when
`price > 1`. -/
def processOutcome (ms : Markets) (mk : String) (bmTitle : String)
    (o : Outcome) : Markets :=
  if 1 < o.price then marketsAppend ms mk (fullLabel o) (bmTitle, o.price)
  else ms

/-- Method `SurebetScanner._extract_markets`: triple loop over bookmakers, markets
and outcomes, grouping quotes with positive — in fact strictly `> 1` — prices
by market key and full outcome label. -/
def extract_markets (e : EventData) : Markets :=
  e.bookmakers.foldl (fun ms bm =>
    bm.markets.foldl (fun ms m =>
      m.outcomes.foldl (fun ms o => processOutcome ms m.key bm.title o)
        (marketsEnsure ms m.key)) ms) []

/-- All quotes of the grouped dictionary, flattened to
(market key, outcome label, bookmaker, price) tuples. -/
def flatMarkets (ms : Markets) : List (String × (String × Option ℚ) × String × ℚ) :=
  ms.flatMap (fun p => p.2.flatMap (fun q => q.2.map (fun e => (p.1, q.1, e.1, e.2))))

/-- Every provider quote of the raw event, in traversal order, as
(market key, outcome label, bookmaker, price) tuples. -/
def allQuotes (e : EventData) : List (String × (String × Option ℚ) × String × ℚ) :=
  e.bookmakers.flatMap (fun bm =>
    bm.markets.flatMap (fun m =>
      m.outcomes.map (fun o => (m.key, fullLabel o, bm.title, o.price))))

end SurebetBot

namespace SurebetBot

/-- Flattening of one market's inner label dictionary. -/
def flatInner (mk : String)
    (inner : List ((String × Option ℚ) × List (String × ℚ))) :
    List (String × (String × Option ℚ) × String × ℚ) :=
  inner.flatMap (fun q => q.2.map (fun e => (mk, q.1, e.1, e.2)))

theorem flatMarkets_cons (k : String)
    (inner : List ((String × Option ℚ) × List (String × ℚ))) (rest : Markets) :
    flatMarkets ((k, inner) :: rest) = flatInner k inner ++ flatMarkets rest := by
  simp [flatMarkets, flatInner]

theorem flatInner_innerAppend (mk : String)
    (inner : List ((String × Option ℚ) × List (String × ℚ)))
    (lbl : String × Option ℚ) (entry : String × ℚ) :
    (flatInner mk (innerAppend inner lbl entry)).Perm
      ((mk, lbl, entry.1, entry.2) :: flatInner mk inner) := by
  induction inner with
  | nil => simp [flatInner, innerAppend]
  | cons q rest ih =>
    obtain ⟨l, es⟩ := q
    by_cases hl : l = lbl
    · subst hl
      have hred : innerAppend ((l, es) :: rest) l entry = (l, es ++ [entry]) :: rest := by
        rw [innerAppend, if_pos rfl]
      rw [hred]
      simp only [flatInner, List.flatMap_cons, List.map_append, List.map_cons,
        List.map_nil, List.append_assoc, List.singleton_append]
      exact List.perm_middle
    · simp only [innerAppend, if_neg hl, flatInner, List.flatMap_cons] at ih ⊢
      exact (List.Perm.append_left _ ih).trans List.perm_middle

theorem flatMarkets_marketsAppend (ms : Markets) (mk : String)
    (lbl : String × Option ℚ) (entry : String × ℚ) :
    (flatMarkets (marketsAppend ms mk lbl entry)).Perm
      ((mk, lbl, entry.1, entry.2) :: flatMarkets ms) := by
  induction ms with
  | nil => simp [flatMarkets, marketsAppend, flatInner]
  | cons p rest ih =>
    obtain ⟨k, inner⟩ := p
    by_cases hk : k = mk
    · subst hk
      rw [marketsAppend, if_pos rfl, flatMarkets_cons, flatMarkets_cons]
      exact (List.Perm.append_right _ (flatInner_innerAppend k inner lbl entry)).trans
        (by simp)
    · rw [marketsAppend, if_neg hk, flatMarkets_cons, flatMarkets_cons]
      exact (List.Perm.append_left _ ih).trans List.perm_middle

theorem flatMarkets_marketsEnsure (ms : Markets) (mk : String) :
    flatMarkets (marketsEnsure ms mk) = flatMarkets ms := by
  induction ms with
  | nil => simp [flatMarkets, marketsEnsure, flatInner]
  | cons p rest ih =>
    obtain ⟨k, inner⟩ := p
    by_cases hk : k = mk
    · rw [marketsEnsure, if_pos hk]
    · rw [marketsEnsure, if_neg hk, flatMarkets_cons, flatMarkets_cons, ih]

end SurebetBot

namespace SurebetBot

theorem flatMarkets_processOutcome (ms : Markets) (mk t : String) (o : Outcome) :
    (flatMarkets (processOutcome ms mk t o)).Perm
      ((if 1 < o.price then [(mk, fullLabel o, t, o.price)] else [])
        ++ flatMarkets ms) := by
  unfold processOutcome
  by_cases h : 1 < o.price
  · rw [if_pos h, if_pos h]
    simpa using flatMarkets_marketsAppend ms mk (fullLabel o) (t, o.price)
  · rw [if_neg h, if_neg h]
    simp

theorem flatMarkets_foldOutcomes (os : List Outcome) (mk t : String) :
    ∀ ms : Markets,
      (flatMarkets (os.foldl (fun ms o => processOutcome ms mk t o) ms)).Perm
        ((os.map (fun o => (mk, fullLabel o, t, o.price))).filter
            (fun q => decide (1 < q.2.2.2)) ++ flatMarkets ms) := by
  induction os with
  | nil =>
    intro ms
    simp
  | cons o os ih =>
    intro ms
    rw [List.foldl_cons]
    refine (ih _).trans ?_
    refine (List.Perm.append_left _ (flatMarkets_processOutcome ms mk t o)).trans ?_
    rw [← List.append_assoc]
    refine (List.Perm.append_right _ List.perm_append_comm).trans ?_
    have hfil : (if 1 < o.price then [(mk, fullLabel o, t, o.price)] else [])
        ++ (os.map (fun o => (mk, fullLabel o, t, o.price))).filter
            (fun q => decide (1 < q.2.2.2))
        = ((o :: os).map (fun o => (mk, fullLabel o, t, o.price))).filter
            (fun q => decide (1 < q.2.2.2)) := by
      by_cases h : 1 < o.price <;> simp [h, List.filter_cons]
    rw [hfil]

theorem flatMarkets_foldMarkets (mkts : List MarketData) (t : String) :
    ∀ ms : Markets,
      (flatMarkets (mkts.foldl (fun ms m =>
          m.outcomes.foldl (fun ms o => processOutcome ms m.key t o)
            (marketsEnsure ms m.key)) ms)).Perm
        ((mkts.flatMap (fun m =>
            m.outcomes.map (fun o => (m.key, fullLabel o, t, o.price)))).filter
            (fun q => decide (1 < q.2.2.2)) ++ flatMarkets ms) := by
  induction mkts with
  | nil =>
    intro ms
    simp
  | cons m mkts ih =>
    intro ms
    rw [List.foldl_cons]
    refine (ih _).trans ?_
    have h5 := flatMarkets_foldOutcomes m.outcomes m.key t (marketsEnsure ms m.key)
    rw [flatMarkets_marketsEnsure] at h5
    refine (List.Perm.append_left _ h5).trans ?_
    rw [← List.append_assoc]
    refine (List.Perm.append_right _ List.perm_append_comm).trans ?_
    rw [List.flatMap_cons, List.filter_append, List.append_assoc]

theorem flatMarkets_foldBookmakers (bms : List BookmakerData) :
    ∀ ms : Markets,
      (flatMarkets (bms.foldl (fun ms bm =>
          bm.markets.foldl (fun ms m =>
            m.outcomes.foldl (fun ms o => processOutcome ms m.key bm.title o)
              (marketsEnsure ms m.key)) ms) ms)).Perm
        ((bms.flatMap (fun bm => bm.markets.flatMap (fun m =>
            m.outcomes.map (fun o => (m.key, fullLabel o, bm.title, o.price))))).filter
            (fun q => decide (1 < q.2.2.2)) ++ flatMarkets ms) := by
  induction bms with
  | nil =>
    intro ms
    simp
  | cons bm bms ih =>
    intro ms
    rw [List.foldl_cons]
    refine (ih _).trans ?_
    refine (List.Perm.append_left _ (flatMarkets_foldMarkets bm.markets bm.title ms)).trans ?_
    rw [← List.append_assoc]
    refine (List.Perm.append_right _ List.perm_append_comm).trans ?_
    rw [List.flatMap_cons, List.filter_append, List.append_assoc]

/-- C9 (amended): the grouped market dictionary built by `_extract_markets`
keeps exactly the quotes whose price is strictly greater than `1` — one
grouped entry (market key, outcome label, bookmaker, price) per such quote —
and discards every quote with price `≤ 1`, including positive prices in
`(0, 1]`. -/
theorem scanner_extract_markets_quotes (e : EventData) :
    (flatMarkets (extract_markets e)).Perm
      ((allQuotes e).filter (fun q => decide (1 < q.2.2.2))) := by
  have h := flatMarkets_foldBookmakers e.bookmakers []
  simpa [extract_markets, allQuotes, flatMarkets] using h

/-- C9 counterexample: a quote with positive price `1/2 ≤ 1` is discarded —
the grouped dictionary contains no entry for it, refuting "keeps every quote
whose odds value is positive". -/
theorem extract_markets_positive_price_counterexample :
    (0 : ℚ) < 1/2 ∧
    extract_markets ⟨[⟨"BookA", [⟨"h2h", [⟨"X", none, 1/2⟩]⟩]⟩]⟩ = [("h2h", [])] ∧
    flatMarkets (extract_markets ⟨[⟨"BookA", [⟨"h2h", [⟨"X", none, 1/2⟩]⟩]⟩]⟩) = [] := by
  have h : ¬ (1 : ℚ) < 2⁻¹ := by norm_num
  have hext : extract_markets ⟨[⟨"BookA", [⟨"h2h", [⟨"X", none, 1/2⟩]⟩]⟩]⟩
      = [("h2h", [])] := by
    unfold extract_markets
    simp [processOutcome, marketsEnsure, h]
  exact ⟨by norm_num, hext, by rw [hext]; rfl⟩

end SurebetBot
